import Mathlib

/-!
# Verification of `stack-vector` (`StackVec`, a fixed-capacity stack-allocated vector)

Shallow embedding of `src/lib.rs` and `src/drain.rs`.

Modelling conventions:
* A `MaybeUninit<T>` slot is an `Option T`: `none` is an uninitialized slot,
  `some x` a slot holding the value `x`.  The backing array `inner : [MaybeUninit<T>; CAP]`
  becomes a `List (Option T)` of length `CAP` (recorded in the well-formedness
  predicate `WF`).
* Abnormal termination (an index-out-of-bounds panic of `self.inner[i]`, a `usize`
  subtraction overflow, a read of an uninitialized slot via `assume_init_read`,
  or the explicit `panic!` in `push`) is modelled by `Option`/`Except` results:
  `none` (resp. the error variant) marks the abnormal outcome; it is never a value
  the Rust function returns normally.
* `ptr::copy` (memmove semantics: every source byte is read before the destination
  is written) becomes `listCopy`, which reads only from the original list.
* Iterators (`try_extend_from_iter`'s input, `Drain`) are modelled by lists and an
  explicit cursor pair over the drained range.
-/

namespace StackVector

instance {ε α : Type} [DecidableEq ε] [DecidableEq α] : DecidableEq (Except ε α) := fun x y =>
  match x, y with
  | .error a, .error b => if h : a = b then .isTrue (by rw [h]) else .isFalse (by simp [h])
  | .ok a, .ok b => if h : a = b then .isTrue (by rw [h]) else .isFalse (by simp [h])
  | .error _, .ok _ => .isFalse (by simp)
  | .ok _, .error _ => .isFalse (by simp)

/-- The `StackVec<T, CAP>` struct: `inner: [MaybeUninit<T>; CAP]` and `length: usize`. -/
structure StackVec (T : Type) (CAP : Nat) where
  inner : List (Option T)
  length : Nat
deriving DecidableEq, Repr

variable {T : Type} {CAP : Nat}

/-- Well-formedness invariant of a `StackVec` value: the backing array really has
`CAP` slots, `length <= CAP`, and the first `length` slots are initialized
(invariants I1/I2 of the spec; slots past `length` may hold stale bits, so nothing
is claimed about them). -/
def WF (v : StackVec T CAP) : Prop :=
  v.inner.length = CAP ∧ v.length ≤ CAP ∧
    ∀ k, k < v.length → (v.inner.getD k none).isSome = true

instance (v : StackVec T CAP) : Decidable (WF v) := by
  unfold WF; infer_instance

/-- `StackVec::new()`: all slots uninitialized, `length = 0`. -/
def new (T : Type) (CAP : Nat) : StackVec T CAP :=
  ⟨List.replicate CAP none, 0⟩

/-- `StackVec::from_array(arr)`: takes ownership of a fully initialized array,
`length = CAP`. -/
def from_array (arr : List T) : StackVec T arr.length :=
  ⟨arr.map some, arr.length⟩

/-- `StackVec::as_slice()`: the valid prefix `inner[0..length]` (the Rust function
transmutes it to `&[T]`; under `WF` every entry is a `some`). -/
def as_slice (v : StackVec T CAP) : List T :=
  (v.inner.take v.length).filterMap id

/-- `StackVec::len()`. -/
def len (v : StackVec T CAP) : Nat := v.length

/-- `StackVec::is_empty()`. -/
def is_empty (v : StackVec T CAP) : Bool := v.length == 0

/-- `StackVec::is_full()`. -/
def is_full (v : StackVec T CAP) : Bool := v.length == CAP

/-- `StackVec::capacity()`. -/
def capacity (_ : StackVec T CAP) : Nat := CAP

/-- `StackVec::remaining_capacity()`. -/
def remaining_capacity (v : StackVec T CAP) : Nat := CAP - v.length

/-- `StackVec::push_unchecked(val)`: `*(ptr + length) = val; length += 1`.
The caller must guarantee `length < CAP` (otherwise the Rust write is out of
bounds; `List.set` past the end is a no-op, and every caller in this file
checks the bound first, as the source does). -/
def push_unchecked (v : StackVec T CAP) (x : T) : StackVec T CAP :=
  ⟨v.inner.set v.length (some x), v.length + 1⟩

/-- `StackVec::try_push(val)`: rejects with the value itself when `length >= CAP`,
otherwise defers to `push_unchecked`.  The pair carries the final state of `self`. -/
def try_push (v : StackVec T CAP) (x : T) : Except T Unit × StackVec T CAP :=
  if v.length ≥ CAP then (Except.error x, v)
  else (Except.ok (), push_unchecked v x)

/-- `StackVec::push(val)`: panics (modelled by `none`) when `try_push` rejects. -/
def push (v : StackVec T CAP) (x : T) : Option (StackVec T CAP) :=
  match try_push v x with
  | (Except.error _, _) => none
  | (Except.ok _, v') => some v'

/-- `StackVec::try_extend_from_iter(it)`: peeks, and while an element is pending,
either rejects with the remaining iterator (when `length >= CAP`) or pushes the
next element unchecked. -/
def try_extend_from_iter (v : StackVec T CAP) : List T → Except (List T) Unit × StackVec T CAP
  | [] => (Except.ok (), v)
  | x :: rest =>
    if v.length ≥ CAP then (Except.error (x :: rest), v)
    else try_extend_from_iter (push_unchecked v x) rest

/-- `memmove`/`ptr::copy l (l + src) (l + dst) n` inside a buffer `l`:
slot `k` of the result is `l[src + (k - dst)]` for `k ∈ [dst, dst + n)` and `l[k]`
otherwise; all reads are from the original buffer. -/
def listCopy (l : List (Option T)) (src dst n : Nat) : List (Option T) :=
  (List.range l.length).map fun k =>
    if dst ≤ k ∧ k < dst + n then l.getD (src + (k - dst)) none else l.getD k none

/-- `StackVec::remove_unchecked(i)`:
`let ret = inner[i].assume_init_read();`
`ptr::copy(ptr.add(i+1), ptr.add(i), length - i - 1); length -= 1;`
Abnormal outcomes, modelled as `none`: `inner[i]` panics when `i >= CAP`;
`assume_init_read` of an uninitialized slot is UB; and when `length < i + 1` the
`usize` count `length - i - 1` overflows (debug panic / UB-sized copy in release). -/
def remove_unchecked (v : StackVec T CAP) (i : Nat) : Option (T × StackVec T CAP) :=
  if i < CAP then
    match v.inner.getD i none with
    | some x =>
      if i + 1 ≤ v.length then
        some (x, ⟨listCopy v.inner (i + 1) i (v.length - i - 1), v.length - 1⟩)
      else none
    | none => none
  else none

/-- `StackVec::remove(i)`: guarded by `i <= self.length` (note: `<=`, not `<`);
returns Rust's `None` (here `some (none, v)`: a normal return carrying `None`
and the untouched state) only when `i > length`. -/
def remove (v : StackVec T CAP) (i : Nat) : Option (Option T × StackVec T CAP) :=
  if i ≤ v.length then
    (remove_unchecked v i).map fun p => (some p.1, p.2)
  else some (none, v)

/-- `StackVec::pop()`: `self.remove(self.length)`. -/
def pop (v : StackVec T CAP) : Option (Option T × StackVec T CAP) :=
  remove v v.length

/-- `Clone for StackVec` as implemented: a fresh all-uninitialized array whose
first `length` slots are `ptr::copy`ed bitwise from the source; `T::clone` is
never invoked. -/
def clone (v : StackVec T CAP) : StackVec T CAP :=
  ⟨(List.range CAP).map (fun k => if k < v.length then v.inner.getD k none else none),
   v.length⟩

/-- Clone as the spec words it ("element-wise clones of each valid slot"), with
the element type's clone operation `cloneT` applied to every valid slot;
uninitialized slots are never read or cloned.  Stated only to compare with the
implemented `clone`. -/
def clone_spec (cloneT : T → T) (v : StackVec T CAP) : StackVec T CAP :=
  ⟨(List.range CAP).map (fun k => if k < v.length then (v.inner.getD k none).map cloneT else none),
   v.length⟩

/-- The `Drain<'a, T, CAP>` struct: parent buffer, absolute start of the drained
range, the range's original element count `len`, and the `slice::Iter` over the
not-yet-yielded elements, modelled as the absolute cursor pair `[front, back)`. -/
structure Drain (T : Type) (CAP : Nat) where
  sv : StackVec T CAP
  start : Nat
  len : Nat
  front : Nat
  back : Nat
deriving DecidableEq, Repr

/-- A `RangeBounds<usize>` bound, as `drain` receives it. -/
inductive RBound where
  | incl (i : Nat)
  | excl (i : Nat)
  | unb
deriving DecidableEq, Repr

/-- `StackVec::drain`'s resolution of the start bound. -/
def resolveStart : RBound → Nat
  | .incl i => i
  | .excl i => i + 1
  | .unb => 0

/-- `StackVec::drain`'s resolution of the end bound (`Unbounded => self.length`). -/
def resolveEnd (length : Nat) : RBound → Nat
  | .incl i => i + 1
  | .excl i => i
  | .unb => length

/-- `StackVec::drain` after bound resolution: `&self.as_slice()[start..end]` is a
checked slice-indexing operation, so unless `start <= end <= length` it panics
safely (modelled by `none`) with nothing mutated and no `Drain` constructed;
otherwise the `Drain` starts with its cursor over the whole range. -/
def drain (v : StackVec T CAP) (start endIdx : Nat) : Option (Drain T CAP) :=
  if start ≤ endIdx ∧ endIdx ≤ v.length then
    some ⟨v, start, endIdx - start, start, endIdx⟩
  else none

/-- `StackVec::drain(range)` with unresolved bounds. -/
def drainR (v : StackVec T CAP) (s e : RBound) : Option (Drain T CAP) :=
  drain v (resolveStart s) (resolveEnd v.length e)

/-- `Iterator::next` for `Drain`: `self.iter.next().map(|p| ptr::read(p))`. -/
def Drain.next (d : Drain T CAP) : Option T × Drain T CAP :=
  if d.front < d.back then
    (d.sv.inner.getD d.front none, ⟨d.sv, d.start, d.len, d.front + 1, d.back⟩)
  else (none, d)

/-- `DoubleEndedIterator::next_back` for `Drain`. -/
def Drain.next_back (d : Drain T CAP) : Option T × Drain T CAP :=
  if d.front < d.back then
    (d.sv.inner.getD (d.back - 1) none, ⟨d.sv, d.start, d.len, d.front, d.back - 1⟩)
  else (none, d)

/-- `Drop for Drain`: (a) drop the not-yet-yielded elements (no value-level
effect), then (b) when `len > 0`, `ptr::copy` the tail
`[start + len, length)` down to `start` and (c) `length -= len`. -/
def Drain.drop (d : Drain T CAP) : StackVec T CAP :=
  if d.len > 0 then
    ⟨listCopy d.sv.inner (d.start + d.len) d.start (d.sv.length - (d.start + d.len)),
     d.sv.length - d.len⟩
  else d.sv

/-- Front-consumption loop body for `Drain.collect`, with explicit fuel so that it
reduces definitionally (the fuel is always instantiated with `back - front`, which
bounds the number of `next` calls until exhaustion). -/
def Drain.collectFuel (d : Drain T CAP) : Nat → List T
  | 0 => []
  | fuel + 1 =>
    if d.front < d.back then
      match d.sv.inner.getD d.front none with
      | some x => Drain.collectFuel ⟨d.sv, d.start, d.len, d.front + 1, d.back⟩ fuel |>.cons x
      | none => []
    else []

/-- Exhausting a `Drain` from the front and collecting every yielded element
(`collect::<Vec<_>>()`). -/
def Drain.collect (d : Drain T CAP) : List T :=
  Drain.collectFuel d (d.back - d.front)

/-- An arbitrary partial consumption of a `Drain`: each step pulls from the front
(`true`) or from the back (`false`). -/
def Drain.steps (d : Drain T CAP) : List Bool → Drain T CAP
  | [] => d
  | b :: rest => Drain.steps (if b then (Drain.next d).2 else (Drain.next_back d).2) rest

/-! ## Helper lemmas -/

lemma listCopy_length (l : List (Option T)) (src dst n : Nat) :
    (listCopy l src dst n).length = l.length := by
  simp [listCopy]

lemma getElem?_listCopy (l : List (Option T)) (src dst n k : Nat) :
    (listCopy l src dst n)[k]? =
      if k < l.length then
        some (if dst ≤ k ∧ k < dst + n then l.getD (src + (k - dst)) none else l.getD k none)
      else none := by
  rcases Nat.lt_or_ge k l.length with h | h
  · simp [listCopy, List.getElem?_map, List.getElem?_range, h]
  · rw [if_neg (by omega)]
    apply List.getElem?_eq_none
    simp [listCopy_length]; omega

lemma getD_eq_getElem? (l : List (Option T)) (k : Nat) :
    l.getD k none = (l[k]?).getD none := List.getD_eq_getElem?_getD l k none

lemma getElem?_take' (l : List (Option T)) (n m : Nat) :
    (l.take n)[m]? = if m < n then l[m]? else none := by
  rcases Nat.lt_or_ge m n with h | h
  · simp [List.getElem?_take_of_lt, h]
  · rw [if_neg (by omega)]
    rw [List.getElem?_take]
    simp; omega

/-- Compaction: `ptr::copy`ing `len - b` slots from offset `b` down to offset `a`
and keeping the first `len - (b - a)` slots deletes `[a, b)` from the first `len`
slots. -/
lemma listCopy_shift (l : List (Option T)) (a b len : Nat)
    (hab : a ≤ b) (hb : b ≤ len) (hlen : len ≤ l.length) :
    (listCopy l b a (len - b)).take (len - (b - a)) =
      l.take a ++ (l.drop b).take (len - b) := by
  apply List.ext_getElem?
  intro k
  rw [getElem?_take', getElem?_listCopy, List.getElem?_append]
  rcases Nat.lt_or_ge k (len - (b - a)) with hk | hk
  · rw [if_pos hk, if_pos (by omega)]
    rcases Nat.lt_or_ge k a with hka | hka
    · rw [if_neg (by omega)]
      rw [if_pos (by simp [List.length_take]; omega)]
      rw [getElem?_take', if_pos hka, getD_eq_getElem?]
      rcases Nat.lt_or_ge k l.length with h | h
      · simp [List.getElem?_eq_getElem, h]
      · omega
    · rw [if_pos (by omega)]
      rw [if_neg (by simp [List.length_take]; omega)]
      rw [getElem?_take']
      rw [if_pos (by simp [List.length_take]; omega)]
      rw [List.getElem?_drop, getD_eq_getElem?]
      have hta : (List.take a l).length = a := by simp [List.length_take]; omega
      rw [hta]
      have h2 : b + (k - a) < l.length := by omega
      simp [List.getElem?_eq_getElem, h2]
  · rw [if_neg (by omega)]
    rcases Nat.lt_or_ge k (min a l.length) with hka | hka
    · omega
    · rw [if_neg (by simp [List.length_take]; omega)]
      rw [getElem?_take']
      rw [if_neg (by simp [List.length_take]; omega)]

/-- An all-initialized prefix is the `some`-image of a list of plain values. -/
lemma exists_map_some (l : List (Option T)) (len : Nat) (hlen : len ≤ l.length)
    (h : ∀ k, k < len → (l.getD k none).isSome = true) :
    ∃ vals : List T, vals.length = len ∧ l.take len = vals.map some := by
  induction l generalizing len with
  | nil =>
    refine ⟨[], ?_, by simp⟩
    simp only [List.length_nil] at hlen ⊢
    omega
  | cons o t ih =>
    match len with
    | 0 => exact ⟨[], rfl, by simp⟩
    | m + 1 =>
      have ho : o.isSome = true := h 0 (by omega)
      obtain ⟨x, hx⟩ : ∃ x, o = some x := by
        cases o
        · simp at ho
        · exact ⟨_, rfl⟩
      obtain ⟨vs, hvslen, hvs⟩ := ih m (by simp at hlen; omega)
        (fun k hk => by simpa using h (k + 1) (by omega))
      exact ⟨x :: vs, by simp [hvslen], by simp [hx, hvs]⟩

lemma WF_exists_vals {v : StackVec T CAP} (hwf : WF v) :
    ∃ vals : List T, vals.length = v.length ∧ v.inner.take v.length = vals.map some :=
  exists_map_some v.inner v.length (by rw [hwf.1]; exact hwf.2.1) hwf.2.2

lemma as_slice_eq (v : StackVec T CAP) (vals : List T)
    (h : v.inner.take v.length = vals.map some) : as_slice v = vals := by
  unfold as_slice
  rw [h, List.filterMap_map]
  simp

lemma getD_eq_of_vals (v : StackVec T CAP) (vals : List T)
    (hv : v.inner.take v.length = vals.map some) (k : Nat) (hk : k < v.length) :
    v.inner.getD k none = vals[k]? := by
  rw [getD_eq_getElem?]
  have h1 : v.inner[k]? = (v.inner.take v.length)[k]? := by
    rw [getElem?_take', if_pos hk]
  rw [h1, hv, List.getElem?_map]
  cases vals[k]? <;> simp

lemma take_succ_set (l : List (Option T)) (n : Nat) (x : Option T) (h : n < l.length) :
    (l.set n x).take (n + 1) = l.take n ++ [x] := by
  apply List.ext_getElem?
  intro k
  rw [getElem?_take', List.getElem?_append]
  have hta : (List.take n l).length = n := by simp [List.length_take]; omega
  rw [hta]
  rcases Nat.lt_trichotomy k n with hk | hk | hk
  · rw [if_pos (by omega), if_pos hk, List.getElem?_set_ne (by omega), getElem?_take', if_pos hk]
  · subst hk
    rw [if_pos (by omega), if_neg (by omega), List.getElem?_set_self h]
    simp
  · rw [if_neg (by omega), if_neg (by omega)]
    symm
    apply List.getElem?_eq_none
    simp
    omega

lemma as_slice_push_unchecked (v : StackVec T CAP) (x : T) (hwf : WF v)
    (h : v.length < CAP) :
    as_slice (push_unchecked v x) = as_slice v ++ [x] := by
  obtain ⟨vals, hlen, hv⟩ := WF_exists_vals hwf
  rw [as_slice_eq v vals hv]
  apply as_slice_eq
  show (v.inner.set v.length (some x)).take (v.length + 1) = (vals ++ [x]).map some
  rw [take_succ_set v.inner v.length (some x) (by rw [hwf.1]; exact h)]
  rw [hv]
  simp

lemma WF_push_unchecked (v : StackVec T CAP) (x : T) (hwf : WF v)
    (h : v.length < CAP) : WF (push_unchecked v x) := by
  obtain ⟨hinner, hle, hsome⟩ := hwf
  refine ⟨by simp [push_unchecked, hinner], by simp [push_unchecked]; omega, ?_⟩
  intro k hk
  show ((v.inner.set v.length (some x)).getD k none).isSome = true
  rw [getD_eq_getElem?]
  rcases Nat.lt_or_ge k v.length with hklt | hkge
  · rw [List.getElem?_set_ne (by omega)]
    rw [← getD_eq_getElem?]
    exact hsome k hklt
  · have hkeq : k = v.length := by simp [push_unchecked] at hk; omega
    subst hkeq
    rw [List.getElem?_set_self (by rw [hinner]; exact h)]
    simp

/-! ## Claim theorems -/

/-- Claim C4: for every buffer `v`, if `len(v) < CAP` then `try_push(x)` succeeds
(appends `x` at index `len`, increments the length by one, returns no output); if
`len(v) == CAP` it fails by returning `x` itself unchanged in the error result,
with the buffer (length and elements) untouched. -/
theorem try_push_spec (v : StackVec T CAP) (x : T) (hwf : WF v) :
    (v.length < CAP →
      try_push v x = (Except.ok (), push_unchecked v x) ∧
      (push_unchecked v x).length = v.length + 1 ∧
      as_slice (push_unchecked v x) = as_slice v ++ [x]) ∧
    (v.length = CAP → try_push v x = (Except.error x, v)) := by
  constructor
  · intro h
    refine ⟨?_, rfl, as_slice_push_unchecked v x hwf h⟩
    unfold try_push
    rw [if_neg (by omega)]
  · intro h
    unfold try_push
    rw [if_pos (by omega)]

/-- Witness for the C4 theorem at the concrete input `new Nat 1` / value `7`. -/
theorem try_push_spec_witness :
    WF (new Nat 1) ∧
    (((new Nat 1).length < 1 →
      try_push (new Nat 1) 7 = (Except.ok (), push_unchecked (new Nat 1) 7) ∧
      (push_unchecked (new Nat 1) 7).length = (new Nat 1).length + 1 ∧
      as_slice (push_unchecked (new Nat 1) 7) = as_slice (new Nat 1) ++ [7]) ∧
    ((new Nat 1).length = 1 → try_push (new Nat 1) 7 = (Except.error 7, new Nat 1))) :=
  ⟨by decide, try_push_spec (new Nat 1) 7 (by decide)⟩

/-- Claim C7: `push(x)` fails fatally (the `panic!`, modelled by `none`) if and
only if `len(v) == CAP`; when `len(v) < CAP` it succeeds identically to
`push_unchecked`, appending `x` at index `len` and incrementing the length. -/
theorem push_spec (v : StackVec T CAP) (x : T) (hwf : WF v) :
    (push v x = none ↔ v.length = CAP) ∧
    (v.length < CAP →
      push v x = some (push_unchecked v x) ∧
      (push_unchecked v x).length = v.length + 1 ∧
      as_slice (push_unchecked v x) = as_slice v ++ [x]) := by
  have hle := hwf.2.1
  constructor
  · unfold push try_push
    rcases Nat.lt_or_ge v.length CAP with h | h
    · rw [if_neg (by omega)]
      simp
      omega
    · rw [if_pos h]
      simp
      omega
  · intro h
    refine ⟨?_, rfl, as_slice_push_unchecked v x hwf h⟩
    unfold push try_push
    rw [if_neg (by omega)]

/-- Witness for the C7 theorem at the concrete input `new Nat 2` / value `4`. -/
theorem push_spec_witness :
    WF (new Nat 2) ∧
    ((push (new Nat 2) 4 = none ↔ (new Nat 2).length = 2) ∧
     ((new Nat 2).length < 2 →
      push (new Nat 2) 4 = some (push_unchecked (new Nat 2) 4) ∧
      (push_unchecked (new Nat 2) 4).length = (new Nat 2).length + 1 ∧
      as_slice (push_unchecked (new Nat 2) 4) = as_slice (new Nat 2) ++ [4])) :=
  ⟨by decide, push_spec (new Nat 2) 4 (by decide)⟩

/-- Claim C9: for every index `i` strictly greater than `len(v)`, `remove(i)`
returns Rust's `None` and leaves the buffer completely unchanged; the implemented
boundary for the empty result is `i > len`, not `i >= len` (the `i == len` case
instead enters the removal path — see the C1 theorem). -/
theorem remove_beyond_length (v : StackVec T CAP) (i : Nat) (hi : v.length < i) :
    remove v i = some (none, v) := by
  unfold remove
  rw [if_neg (by omega)]

/-- Witness for the C9 theorem at the concrete input `from_array [1, 2]`, `i = 5`. -/
theorem remove_beyond_length_witness :
    (from_array [1, 2]).length < 5 ∧
      remove (from_array [1, 2]) 5 = some (none, from_array [1, 2]) :=
  ⟨by decide, remove_beyond_length (from_array [1, 2]) 5 (by decide)⟩

/-- Claim C10: `drain` with resolved bounds violating `start <= end <= len(v)`
fails with the safe, defined panic of the slice-indexing bounds check
(`&self.as_slice()[start..end]`, modelled by `none`) before any `Drain` is
constructed; no unchecked out-of-bounds access is performed, and the buffer is
not mutated (the model's `drain` returns the untouched buffer inside the `Drain`
only in the in-bounds case). -/
theorem drain_bounds_check (v : StackVec T CAP) (a b : Nat) :
    drain v a b = none ↔ ¬ (a ≤ b ∧ b ≤ v.length) := by
  unfold drain
  split <;> simp_all

/-- Claim C1 (refuted — code bug): the claim says `remove(i)` for `i >= len` and
`pop()` on an empty buffer return `None` (`some (none, _)` in this model) and
never fail fatally.  The code's guard is `i <= self.length`, so at `i == len`
(and for `pop()`, which calls `remove(self.length)`) it enters
`remove_unchecked(len)`: it reads the uninitialized slot `inner[len]` (or panics
indexing when `len == CAP`) and computes the `usize` count `len - len - 1`, which
overflows — an abnormal outcome (`none`), not the documented `None` return. -/
theorem remove_at_length_aborts :
    pop (new Nat 10) = none ∧
    remove (new Nat 10) 0 = none ∧
    remove (from_array [1, 2, 3]) 3 = none := by decide

/-- Claim C2 (refuted — code bug): the claim says `pop()` on a non-empty buffer
removes and returns the element at index `len - 1`.  The code's `pop` is
`self.remove(self.length)`, which passes the `i <= length` guard and calls
`remove_unchecked(length)`: on a full buffer (`from_array [1,2,3]`) the array
index `inner[3]` panics, and on a non-full one (one push into `new Nat 2`) it
reads the uninitialized slot at index `length` and overflows the shift count —
never returning the last element. -/
theorem pop_aborts_on_nonempty :
    pop (from_array [1, 2, 3]) = none ∧
    pop ((try_push (new Nat 2) 5).2) = none := by decide

/-- Claim C8 (refuted — code bug): the claim says each valid slot of the clone is
an element-wise clone (`T::clone`) of the original.  The implemented `Clone` just
`ptr::copy`s the first `length` slots bitwise and never invokes `T::clone`: the
clone of `from_array [5]` is the bitwise-identical buffer, which differs from the
spec's element-wise clone whenever the element clone operation is observable
(witnessed here with `Nat.succ` as the element clone); for owning element types
the bitwise copy duplicates ownership and causes a double free on drop. -/
theorem clone_is_bitwise_copy :
    clone (from_array [5]) = from_array [5] ∧
    clone_spec Nat.succ (from_array [5]) ≠ clone (from_array [5]) := by decide

lemma inner_take_eq (v : StackVec T CAP) (vals : List T)
    (hv : v.inner.take v.length = vals.map some) (a : Nat) (ha : a ≤ v.length) :
    v.inner.take a = (vals.take a).map some := by
  have h1 : v.inner.take a = (v.inner.take v.length).take a := by
    rw [List.take_take]
    congr 1
    omega
  rw [h1, hv, List.map_take]

lemma inner_drop_take_eq (v : StackVec T CAP) (vals : List T)
    (hv : v.inner.take v.length = vals.map some) (b : Nat) :
    (v.inner.drop b).take (v.length - b) = (vals.drop b).map some := by
  rw [← List.drop_take, hv, List.map_drop]

lemma remove_unchecked_in_range (v : StackVec T CAP) (i : Nat) (hwf : WF v)
    (hi : i < v.length) :
    ∃ x v', remove_unchecked v i = some (x, v') ∧
      (as_slice v)[i]? = some x ∧
      v'.length = v.length - 1 ∧
      as_slice v' = (as_slice v).take i ++ (as_slice v).drop (i + 1) := by
  obtain ⟨vals, hlen, hv⟩ := WF_exists_vals hwf
  have hslice : as_slice v = vals := as_slice_eq v vals hv
  have hival : i < vals.length := by omega
  have hslot : v.inner.getD i none = some vals[i] := by
    rw [getD_eq_of_vals v vals hv i hi, List.getElem?_eq_getElem hival]
  have hle := hwf.2.1
  have hc1 : i < CAP := by omega
  have hc2 : i + 1 ≤ v.length := by omega
  have hru : remove_unchecked v i =
      some (vals[i], ⟨listCopy v.inner (i + 1) i (v.length - i - 1), v.length - 1⟩) := by
    have hslot' : v.inner[i]?.getD none = some vals[i] := by
      rw [← getD_eq_getElem?]
      exact hslot
    simp [remove_unchecked, hslot, hslot', hc1, hc2]
  refine ⟨vals[i], _, hru, ?_, rfl, ?_⟩
  · rw [hslice, List.getElem?_eq_getElem hival]
  · rw [hslice]
    apply as_slice_eq
    show (listCopy v.inner (i + 1) i (v.length - i - 1)).take (v.length - 1) =
      (vals.take i ++ vals.drop (i + 1)).map some
    have e1 : v.length - i - 1 = v.length - (i + 1) := by omega
    have e2 : v.length - 1 = v.length - ((i + 1) - i) := by omega
    rw [e1, e2, listCopy_shift v.inner i (i + 1) v.length (by omega) (by omega)
      (by rw [hwf.1]; exact hwf.2.1)]
    rw [inner_take_eq v vals hv i (by omega), inner_drop_take_eq v vals hv (i + 1),
      ← List.map_append]

/-- Claim C5: for every buffer `v` and index `i < len(v)`, `remove(i)` returns the
element that was at index `i`, shifts every element at an index greater than `i`
left by one (`take i ++ drop (i+1)` of the valid slice), decrements the length by
exactly one, and leaves every element at an index less than `i` untouched. -/
theorem remove_in_range_spec (v : StackVec T CAP) (i : Nat) (hwf : WF v)
    (hi : i < v.length) :
    ∃ x v', remove v i = some (some x, v') ∧
      (as_slice v)[i]? = some x ∧
      v'.length = v.length - 1 ∧
      as_slice v' = (as_slice v).take i ++ (as_slice v).drop (i + 1) := by
  obtain ⟨x, v', h1, h2, h3, h4⟩ := remove_unchecked_in_range v i hwf hi
  refine ⟨x, v', ?_, h2, h3, h4⟩
  unfold remove
  rw [if_pos (by omega), h1]
  rfl

/-- Witness for the C5 theorem at the concrete input `from_array [1, 2, 3, 4]`, `i = 1`. -/
theorem remove_in_range_spec_witness :
    WF (from_array [1, 2, 3, 4]) ∧ 1 < (from_array [1, 2, 3, 4]).length ∧
    (∃ x v', remove (from_array [1, 2, 3, 4]) 1 = some (some x, v') ∧
      (as_slice (from_array [1, 2, 3, 4]))[1]? = some x ∧
      v'.length = (from_array [1, 2, 3, 4]).length - 1 ∧
      as_slice v' = (as_slice (from_array [1, 2, 3, 4])).take 1 ++
        (as_slice (from_array [1, 2, 3, 4])).drop 2) :=
  ⟨by decide, by decide, remove_in_range_spec (from_array [1, 2, 3, 4]) 1 (by decide) (by decide)⟩

/-- Claim C6: `try_extend_from_iter` pushes elements one at a time in order while
capacity remains; if capacity is exhausted with elements still pending it stops
and returns the not-yet-consumed remainder of the sequence (including the element
that did not fit, i.e. `drop (CAP - len)`), leaving the buffer full with every
already-pushed element in place (no rollback); if the whole sequence fits it
succeeds with every element appended in order. -/
theorem try_extend_spec (v : StackVec T CAP) (l : List T) (hwf : WF v) :
    (v.length + l.length ≤ CAP →
      (try_extend_from_iter v l).1 = Except.ok () ∧
      ((try_extend_from_iter v l).2).length = v.length + l.length ∧
      as_slice (try_extend_from_iter v l).2 = as_slice v ++ l) ∧
    (CAP < v.length + l.length →
      (try_extend_from_iter v l).1 = Except.error (l.drop (CAP - v.length)) ∧
      ((try_extend_from_iter v l).2).length = CAP ∧
      as_slice (try_extend_from_iter v l).2 = as_slice v ++ l.take (CAP - v.length)) := by
  induction l generalizing v with
  | nil =>
    refine ⟨fun h => ⟨rfl, by simp [try_extend_from_iter], by simp [try_extend_from_iter]⟩,
      fun h => ?_⟩
    have := hwf.2.1
    simp at h
    omega
  | cons x rest ih =>
    have hle := hwf.2.1
    constructor
    · intro h
      have hlt : v.length < CAP := by simp at h; omega
      have hwf' := WF_push_unchecked v x hwf hlt
      have hstep : try_extend_from_iter v (x :: rest) =
          try_extend_from_iter (push_unchecked v x) rest := by
        simp only [try_extend_from_iter]
        rw [if_neg (by omega)]
      rw [hstep]
      have hlen' : (push_unchecked v x).length = v.length + 1 := rfl
      obtain ⟨h1, h2, h3⟩ := (ih (push_unchecked v x) hwf').1 (by rw [hlen']; simp at h ⊢; omega)
      refine ⟨h1, ?_, ?_⟩
      · rw [h2, hlen']
        simp
        omega
      · rw [h3, as_slice_push_unchecked v x hwf hlt]
        simp
    · intro h
      rcases Nat.lt_or_ge v.length CAP with hlt | hge
      · have hwf' := WF_push_unchecked v x hwf hlt
        have hstep : try_extend_from_iter v (x :: rest) =
            try_extend_from_iter (push_unchecked v x) rest := by
          simp only [try_extend_from_iter]
          rw [if_neg (by omega)]
        rw [hstep]
        have hlen' : (push_unchecked v x).length = v.length + 1 := rfl
        obtain ⟨h1, h2, h3⟩ := (ih (push_unchecked v x) hwf').2 (by rw [hlen']; simp at h ⊢; omega)
        have hsub : CAP - v.length = (CAP - (v.length + 1)) + 1 := by omega
        refine ⟨?_, h2, ?_⟩
        · rw [h1, hlen', hsub, List.drop_succ_cons]
        · rw [h3, as_slice_push_unchecked v x hwf hlt, hlen', hsub, List.take_succ_cons]
          simp
      · have heq : v.length = CAP := by omega
        have hstep : try_extend_from_iter v (x :: rest) = (Except.error (x :: rest), v) := by
          simp only [try_extend_from_iter]
          rw [if_pos (by omega)]
        rw [hstep]
        have hz : CAP - v.length = 0 := by omega
        exact ⟨by rw [hz, List.drop_zero], heq, by rw [hz, List.take_zero, List.append_nil]⟩

/-- Witness for the C6 theorem at the concrete input `new Nat 2` with `[1, 2, 3]`
(overflow: returns `Except.error [3]`, the buffer holds `[1, 2]`). -/
theorem try_extend_spec_witness :
    WF (new Nat 2) ∧
    (((new Nat 2).length + ([1, 2, 3] : List Nat).length ≤ 2 →
      (try_extend_from_iter (new Nat 2) [1, 2, 3]).1 = Except.ok () ∧
      ((try_extend_from_iter (new Nat 2) [1, 2, 3]).2).length =
        (new Nat 2).length + ([1, 2, 3] : List Nat).length ∧
      as_slice (try_extend_from_iter (new Nat 2) [1, 2, 3]).2 = as_slice (new Nat 2) ++ [1, 2, 3]) ∧
    (2 < (new Nat 2).length + ([1, 2, 3] : List Nat).length →
      (try_extend_from_iter (new Nat 2) [1, 2, 3]).1 =
        Except.error (([1, 2, 3] : List Nat).drop (2 - (new Nat 2).length)) ∧
      ((try_extend_from_iter (new Nat 2) [1, 2, 3]).2).length = 2 ∧
      as_slice (try_extend_from_iter (new Nat 2) [1, 2, 3]).2 =
        as_slice (new Nat 2) ++ ([1, 2, 3] : List Nat).take (2 - (new Nat 2).length))) :=
  ⟨by decide, try_extend_spec (new Nat 2) [1, 2, 3] (by decide)⟩

lemma Drain.step_fields (d : Drain T CAP) (b : Bool) :
    ((if b then (Drain.next d).2 else (Drain.next_back d).2).sv = d.sv) ∧
    ((if b then (Drain.next d).2 else (Drain.next_back d).2).start = d.start) ∧
    ((if b then (Drain.next d).2 else (Drain.next_back d).2).len = d.len) := by
  cases b <;> simp only [Drain.next, Drain.next_back, Bool.false_eq_true, if_true, if_false] <;>
    split <;> simp

lemma Drain.steps_fields (bs : List Bool) (d : Drain T CAP) :
    (Drain.steps d bs).sv = d.sv ∧ (Drain.steps d bs).start = d.start ∧
      (Drain.steps d bs).len = d.len := by
  induction bs generalizing d with
  | nil => exact ⟨rfl, rfl, rfl⟩
  | cons b rest ih =>
    simp only [Drain.steps]
    obtain ⟨h1, h2, h3⟩ := ih (if b then (Drain.next d).2 else (Drain.next_back d).2)
    obtain ⟨g1, g2, g3⟩ := Drain.step_fields d b
    exact ⟨h1.trans g1, h2.trans g2, h3.trans g3⟩

lemma collectFuel_spec (fuel : Nat) (d : Drain T CAP) (vals : List T)
    (hv : d.sv.inner.take d.sv.length = vals.map some)
    (hvlen : vals.length = d.sv.length)
    (hfuel : d.back - d.front ≤ fuel)
    (hb : d.back ≤ d.sv.length) :
    Drain.collectFuel d fuel = (vals.drop d.front).take (d.back - d.front) := by
  induction fuel generalizing d with
  | zero =>
    have h0 : d.back - d.front = 0 := by omega
    rw [h0]
    simp [Drain.collectFuel]
  | succ fuel ih =>
    by_cases hfb : d.front < d.back
    · have hslot : d.sv.inner.getD d.front none = some vals[d.front] := by
        rw [getD_eq_of_vals d.sv vals hv d.front (by omega),
          List.getElem?_eq_getElem (by omega)]
      simp only [Drain.collectFuel, if_pos hfb, hslot]
      rw [ih ⟨d.sv, d.start, d.len, d.front + 1, d.back⟩ hv hvlen (by simp; omega) hb]
      have hdec : vals.drop d.front = vals[d.front] :: vals.drop (d.front + 1) :=
        List.drop_eq_getElem_cons (by omega)
      rw [hdec]
      have hsucc : d.back - d.front = (d.back - (d.front + 1)) + 1 := by omega
      rw [hsucc, List.take_succ_cons]
    · have h0 : d.back - d.front = 0 := by omega
      rw [h0]
      simp [Drain.collectFuel, hfb]

lemma drain_drop_spec (d : Drain T CAP) (hwf : WF d.sv)
    (hle : d.start + d.len ≤ d.sv.length) :
    (Drain.drop d).length = d.sv.length - d.len ∧
    as_slice (Drain.drop d) =
      (as_slice d.sv).take d.start ++ (as_slice d.sv).drop (d.start + d.len) := by
  obtain ⟨vals, hvlen, hv⟩ := WF_exists_vals hwf
  have hslice : as_slice d.sv = vals := as_slice_eq d.sv vals hv
  by_cases h0 : d.len > 0
  · have hdrop : Drain.drop d =
        ⟨listCopy d.sv.inner (d.start + d.len) d.start (d.sv.length - (d.start + d.len)),
         d.sv.length - d.len⟩ := by
      simp [Drain.drop, h0]
    rw [hdrop]
    refine ⟨rfl, ?_⟩
    rw [hslice]
    apply as_slice_eq
    show (listCopy d.sv.inner (d.start + d.len) d.start
        (d.sv.length - (d.start + d.len))).take (d.sv.length - d.len) =
      (vals.take d.start ++ vals.drop (d.start + d.len)).map some
    have e2 : d.sv.length - d.len = d.sv.length - ((d.start + d.len) - d.start) := by omega
    rw [e2, listCopy_shift d.sv.inner d.start (d.start + d.len) d.sv.length (by omega) hle
      (by rw [hwf.1]; exact hwf.2.1)]
    rw [inner_take_eq d.sv vals hv d.start (by omega),
      inner_drop_take_eq d.sv vals hv (d.start + d.len), ← List.map_append]
  · have hz : d.len = 0 := by omega
    have hdrop : Drain.drop d = d.sv := by simp [Drain.drop, h0]
    rw [hdrop, hz, hslice]
    exact ⟨by omega, by rw [Nat.add_zero, List.take_append_drop]⟩

/-- Claim C3: for every buffer and in-range interval `[a, b)` with
`a <= b <= len`, collecting every element the `Drain` yields forward produces
exactly the original elements of `[a, b)` in order; and after the `Drain` is
dropped — after any partial consumption from either end (`steps` over any list of
front/back pulls, including none and all) — the buffer's elements equal the
original sequence with `[a, b)` removed and its length has decreased by exactly
`b - a`. -/
theorem drain_spec (v : StackVec T CAP) (a b : Nat) (hwf : WF v)
    (hab : a ≤ b) (hb : b ≤ v.length) :
    ∃ d, drain v a b = some d ∧
      Drain.collect d = ((as_slice v).drop a).take (b - a) ∧
      ∀ bs : List Bool,
        (Drain.drop (Drain.steps d bs)).length = v.length - (b - a) ∧
        as_slice (Drain.drop (Drain.steps d bs)) =
          (as_slice v).take a ++ (as_slice v).drop b := by
  obtain ⟨vals, hvlen, hv⟩ := WF_exists_vals hwf
  have hslice : as_slice v = vals := as_slice_eq v vals hv
  refine ⟨⟨v, a, b - a, a, b⟩, ?_, ?_, ?_⟩
  · unfold drain
    rw [if_pos ⟨hab, hb⟩]
  · unfold Drain.collect
    rw [collectFuel_spec _ _ vals hv hvlen (Nat.le_refl _) hb]
    rw [hslice]
  · intro bs
    obtain ⟨hsv, hstart, hlen⟩ := Drain.steps_fields bs ⟨v, a, b - a, a, b⟩
    have hsv' : (Drain.steps ⟨v, a, b - a, a, b⟩ bs).sv = v := hsv
    have hstart' : (Drain.steps ⟨v, a, b - a, a, b⟩ bs).start = a := hstart
    have hlen' : (Drain.steps ⟨v, a, b - a, a, b⟩ bs).len = b - a := hlen
    have hwf' : WF (Drain.steps ⟨v, a, b - a, a, b⟩ bs).sv := by rw [hsv']; exact hwf
    have hle' : (Drain.steps ⟨v, a, b - a, a, b⟩ bs).start +
        (Drain.steps ⟨v, a, b - a, a, b⟩ bs).len ≤
        (Drain.steps ⟨v, a, b - a, a, b⟩ bs).sv.length := by
      rw [hsv', hstart', hlen']
      omega
    obtain ⟨hL, hS⟩ := drain_drop_spec (Drain.steps ⟨v, a, b - a, a, b⟩ bs) hwf' hle'
    rw [hsv', hlen'] at hL
    rw [hsv', hstart', hlen'] at hS
    rw [show a + (b - a) = b from by omega] at hS
    exact ⟨hL, hS⟩

/-- Witness for the C3 theorem at the concrete input `from_array [0, 1, 2, 3, 4]`,
range `[1, 3)`. -/
theorem drain_spec_witness :
    WF (from_array [0, 1, 2, 3, 4]) ∧ 1 ≤ 3 ∧ 3 ≤ (from_array [0, 1, 2, 3, 4]).length ∧
    (∃ d, drain (from_array [0, 1, 2, 3, 4]) 1 3 = some d ∧
      Drain.collect d = ((as_slice (from_array [0, 1, 2, 3, 4])).drop 1).take (3 - 1) ∧
      ∀ bs : List Bool,
        (Drain.drop (Drain.steps d bs)).length = (from_array [0, 1, 2, 3, 4]).length - (3 - 1) ∧
        as_slice (Drain.drop (Drain.steps d bs)) =
          (as_slice (from_array [0, 1, 2, 3, 4])).take 1 ++
            (as_slice (from_array [0, 1, 2, 3, 4])).drop 3) :=
  ⟨by decide, by decide, by decide,
    drain_spec (from_array [0, 1, 2, 3, 4]) 1 3 (by decide) (by decide) (by decide)⟩

end StackVector
